import Mathlib

/-!
# Verification of the Tibetan-Sanskrit transliteration engine

Shallow embedding of `tibetan_sanskrit_transliteration/transliterator.py`
(class `TibetanSanskritTransliterator`, module-level `transliterate` and
`get_transliterator`).

Modelling conventions:

* Strings are processed as `List Char`, mirroring Python's per-character
  string scanning; the public entry points take and return `String`.
* The engine's rule patterns come from a CSV of literal Tibetan syllables.
  Every regular-expression substitution the code performs is therefore
  interpreted for literal (metacharacter-free) patterns, for which Python's
  `re.sub` coincides with leftmost, non-overlapping, global literal
  rewriting.  Each substitution shape used by the code (the genitive-suffix
  pattern `(p[^་།༑༔]*)་ནཱཾ`, the `p[་།༑༔]` / `pཿ` / `p([vowel-markers])`
  shapes, the placeholder pattern `' ?\^\^\^'`, the vowel-collision
  patterns `a([āīūṛṝḷḹ])` and `a([ṃṁ])`, and the space-run patterns
  `' {2,}'` and `' {2,}(.)'`) is implemented directly as a scanning
  function.
* `re.compile` failure (`re.error`) is modelled by an oracle
  `reFails : String → Bool` applied to the exact pattern string the code
  hands to `re.sub`; a flagged pattern makes the corresponding `try` block
  abort at that statement, exactly as the `except re.error` handlers do.
* The two normalizer collaborators (`normalize_tibetan`,
  `normalize_iast`) live in `normalizer.py`, which is outside the
  transliterator module under verification; they are opaque function
  parameters here, as the design documents them.
* The CSV loader performs file I/O; it is an opaque parameter
  `load_replacements : Option String → List Rule`.
* The scanning functions recurse on an explicit character budget (`fuel`)
  initialised to the string length; every scanning step consumes at least
  one character, so the budget is never exhausted on the wrapper entry
  points.  This keeps all definitions structurally recursive and hence
  evaluable by the kernel.
-/

namespace TibetanSanskrit

/-- One replacement rule, as loaded from `replacements.csv`
(`loader.load_replacements`): a Tibetan pattern and its two Romanizations. -/
structure Rule where
  tibetan : String
  transliteration : String
  phonetics : String
deriving Repr, DecidableEq

/-- The engine class `TibetanSanskritTransliterator`: it owns the rule list,
with each rule's Tibetan pattern already normalized by the constructor. -/
structure TibetanSanskritTransliterator where
  replacements : List Rule
deriving Repr, DecidableEq

/-- The syllable/boundary marker characters of the character classes
`[་།༑༔]` and `[^་།༑༔]` in `transliterate`. -/
def boundaryMarks : List Char := ['་', '།', '༑', '༔']

/-- `vowel_markers` from `transliterate` (line 57):
`'ཱིེོུཾྀ'`, the Tibetan dependent vowel
signs that override the inherent `a`. -/
def vowel_markers : List Char :=
  ['ཱ', 'ི', 'ུ', 'ེ', 'ོ', 'ཾ', 'ྀ']

/-- The literal tail `་ནཱཾ` of the genitive-suffix pattern
`f"({pattern}[^་།༑༔]*)་ནཱཾ"`: a tshek followed by the three code points of
`ནཱཾ` (NA, vowel sign AA, anusvara). -/
def genitiveTail : List Char := ['་', 'ན', 'ཱ', 'ཾ']

/-- The characters of the class in `re.sub(r'a([āīūṛṝḷḹ])', r'\1', ...)`. -/
def longVowelChars : List Char := ['ā', 'ī', 'ū', 'ṛ', 'ṝ', 'ḷ', 'ḹ']

/-- The characters of the class in `re.sub(r'a([ṃṁ])', r'\1', ...)`. -/
def anusvaraChars : List Char := ['ṃ', 'ṁ']

/-- Python `str.replace(old, new)` for a non-empty `old`: leftmost,
non-overlapping, global literal replacement.  `fuel` bounds the scan; each
step consumes at least one character.  For a literal pattern this is also
the behaviour of `re.sub(old, new, s)`. -/
def pyReplaceAux (old new : List Char) : Nat → List Char → List Char
  | 0, s => s
  | _ + 1, [] => []
  | n + 1, c :: t =>
    if old ≠ [] ∧ old.isPrefixOf (c :: t) then
      new ++ pyReplaceAux old new n ((c :: t).drop old.length)
    else
      c :: pyReplaceAux old new n t

/-- Python `str.replace` (e.g. `replaced.replace('་', ' ')`,
`result.replace('ṃ', 'ṁ')`, and the literal fallback
`replaced.replace(pattern, replacement)`). -/
def strReplace (old new s : List Char) : List Char :=
  pyReplaceAux old new s.length s

/-- `re.sub` with a literal pattern, as used for
`re.sub(pattern, replacement, replaced)` and `re.sub(f"{pattern}ཿ", ...)`:
identical to literal `str.replace`. -/
def reSubLit (old new s : List Char) : List Char :=
  pyReplaceAux old new s.length s

/-- Scanner for `re.sub(f"({pattern}[^་།༑༔]*)་ནཱཾ", f"\\1་^^^{sfx}", s)`:
at a match position, the group is the pattern followed by the maximal run
of non-marker characters, and must be followed by the literal `་ནཱཾ`; the
match is rewritten to the group, a tshek, the `^^^` placeholder and the
mode-dependent suffix, and scanning resumes after the match. -/
def subGenitiveAux (p sfx : List Char) : Nat → List Char → List Char
  | 0, s => s
  | _ + 1, [] => []
  | n + 1, c :: t =>
    if p.isPrefixOf (c :: t) then
      let r1 := (c :: t).drop p.length
      let run := r1.takeWhile (fun d => !(boundaryMarks.contains d))
      let r2 := r1.drop run.length
      if genitiveTail.isPrefixOf r2 then
        p ++ run ++ ('་' :: '^' :: '^' :: '^' :: sfx) ++
          subGenitiveAux p sfx n (r2.drop genitiveTail.length)
      else
        c :: subGenitiveAux p sfx n t
    else
      c :: subGenitiveAux p sfx n t

/-- Scanner for `re.sub(f"{pattern}[་།༑༔]", f"{replacement} ", s)`: the
pattern followed by one boundary marker is rewritten to `repl` (which the
caller instantiates as the replacement plus one space). -/
def subBoundaryAux (p repl : List Char) : Nat → List Char → List Char
  | 0, s => s
  | _ + 1, [] => []
  | n + 1, c :: t =>
    if p.isPrefixOf (c :: t) then
      match (c :: t).drop p.length with
      | m :: rest =>
        if boundaryMarks.contains m then
          repl ++ subBoundaryAux p repl n rest
        else
          c :: subBoundaryAux p repl n t
      | [] => c :: subBoundaryAux p repl n t
    else
      c :: subBoundaryAux p repl n t

/-- Scanner for `re.sub(f"{pattern}([{vowel_markers}])", f"{base}\\1", s)`:
the pattern followed by one dependent vowel sign is rewritten to `base`
followed by that same sign. -/
def subVowelMarkerAux (p base : List Char) : Nat → List Char → List Char
  | 0, s => s
  | _ + 1, [] => []
  | n + 1, c :: t =>
    if p.isPrefixOf (c :: t) then
      match (c :: t).drop p.length with
      | m :: rest =>
        if vowel_markers.contains m then
          base ++ m :: subVowelMarkerAux p base n rest
        else
          c :: subVowelMarkerAux p base n t
      | [] => c :: subVowelMarkerAux p base n t
    else
      c :: subVowelMarkerAux p base n t

/-- `re.sub(r' ?\^\^\^', '', result)`: delete every `^^^` placeholder
together with one optional preceding space (the optional space is matched
greedily). -/
def stripPlaceholder : List Char → List Char
  | ' ' :: '^' :: '^' :: '^' :: t => stripPlaceholder t
  | '^' :: '^' :: '^' :: t => stripPlaceholder t
  | c :: t => c :: stripPlaceholder t
  | [] => []

/-- `re.sub(r'a([C])', r'\1', result)` for a character class `cls`: an `a`
immediately followed by a class character is deleted (the class character
is kept), and scanning resumes after the match.  Used with
`longVowelChars` and `anusvaraChars` (lines 124-125). -/
def cleanupSub (cls : List Char) : List Char → List Char
  | [] => []
  | [c] => [c]
  | c :: d :: t =>
    if c == 'a' && cls.contains d then
      d :: cleanupSub cls t
    else
      c :: cleanupSub cls (d :: t)

/-- Both vowel-collision cleanup substitutions of lines 124-125, in source
order: long/independent vowels first, then the anusvara glyphs. -/
def doubleVowelCleanup (s : List Char) : List Char :=
  cleanupSub anusvaraChars (cleanupSub longVowelChars s)

/-- Python `str.upper()` restricted to one character, covering ASCII
letters and the lowercase IAST diacritics the engine's output alphabet
uses; any other character is returned unchanged. -/
def pyUpper (c : Char) : Char :=
  match c with
  | 'a' => 'A' | 'b' => 'B' | 'c' => 'C' | 'd' => 'D' | 'e' => 'E'
  | 'f' => 'F' | 'g' => 'G' | 'h' => 'H' | 'i' => 'I' | 'j' => 'J'
  | 'k' => 'K' | 'l' => 'L' | 'm' => 'M' | 'n' => 'N' | 'o' => 'O'
  | 'p' => 'P' | 'q' => 'Q' | 'r' => 'R' | 's' => 'S' | 't' => 'T'
  | 'u' => 'U' | 'v' => 'V' | 'w' => 'W' | 'x' => 'X' | 'y' => 'Y'
  | 'z' => 'Z'
  | 'ā' => 'Ā' | 'ī' => 'Ī' | 'ū' => 'Ū' | 'ṛ' => 'Ṛ' | 'ṝ' => 'Ṝ'
  | 'ḷ' => 'Ḷ' | 'ḹ' => 'Ḹ' | 'ṃ' => 'Ṃ' | 'ṁ' => 'Ṁ' | 'ḥ' => 'Ḥ'
  | 'ñ' => 'Ñ' | 'ṅ' => 'Ṅ' | 'ṭ' => 'Ṭ' | 'ḍ' => 'Ḍ' | 'ṇ' => 'Ṇ'
  | 'ś' => 'Ś' | 'ṣ' => 'Ṣ'
  | other => other

/-- `result[0].upper() + result[1:] if result else result` (line 129). -/
def capFirst : List Char → List Char
  | [] => []
  | c :: t => pyUpper c :: t

/-- `re.sub(r' {2,}', '    ', result)` (line 132): every maximal run of two
or more spaces becomes exactly four spaces. -/
def normSpacesAux : Nat → List Char → List Char
  | 0, s => s
  | _ + 1, [] => []
  | n + 1, ' ' :: ' ' :: t =>
    ' ' :: ' ' :: ' ' :: ' ' :: normSpacesAux n (t.dropWhile (· == ' '))
  | n + 1, c :: t => c :: normSpacesAux n t

/-- `re.sub(r' {2,}(.)', lambda m: '    ' + m.group(1).upper(), result)`
(line 130).  A run of `k ≥ 2` spaces followed by a non-newline character
`c` matches as `k` spaces plus `c` and is rewritten to four spaces plus the
uppercased `c`.  When the run is followed by a newline or the end of the
string, `.` cannot take that position; the quantifier backtracks, so for
`k ≥ 3` the last space itself is captured (giving four spaces plus an
uppercased space), while a run of exactly two such spaces does not match at
all. -/
def capGroupsAux : Nat → List Char → List Char
  | 0, s => s
  | _ + 1, [] => []
  | n + 1, ' ' :: ' ' :: t =>
    let run := t.takeWhile (· == ' ')
    let rest := t.drop run.length
    match rest with
    | [] =>
      if run.length ≥ 1 then
        ' ' :: ' ' :: ' ' :: ' ' :: pyUpper ' ' :: capGroupsAux n []
      else
        [' ', ' ']
    | c :: r2 =>
      if c == '\n' then
        if run.length ≥ 1 then
          ' ' :: ' ' :: ' ' :: ' ' :: pyUpper ' ' :: capGroupsAux n rest
        else
          ' ' :: ' ' :: capGroupsAux n rest
      else
        ' ' :: ' ' :: ' ' :: ' ' :: pyUpper c :: capGroupsAux n r2
  | n + 1, c :: t => c :: capGroupsAux n t

/-- Is `c` one of the characters Python's `str.strip()` removes (the ASCII
whitespace subset, which is what the engine's output can contain)? -/
def pyIsSpace (c : Char) : Bool :=
  c == ' ' || c == '\t' || c == '\n' || c == '\r' || c == '\x0b' || c == '\x0c'

/-- Python `str.strip()`: remove leading and trailing whitespace. -/
def pyStrip (s : List Char) : List Char :=
  ((s.dropWhile pyIsSpace).reverse.dropWhile pyIsSpace).reverse

/-- The pattern string `f"({pattern}[^་།༑༔]*)་ནཱཾ"` handed to the
genitive-suffix `re.sub` (line 74). -/
def genitivePattern (pat : String) : String :=
  "(" ++ pat ++ "[^་།༑༔]*)་ནཱཾ"

/-- The pattern string `f"{pattern}[་།༑༔]"` handed to the word-final
`re.sub` (line 89). -/
def boundaryPattern (pat : String) : String :=
  pat ++ "[་།༑༔]"

/-- The pattern string `f"{pattern}ཿ"` handed to the visarga `re.sub`
(line 96). -/
def visargaPattern (pat : String) : String :=
  pat ++ "ཿ"

/-- The pattern string `f"{pattern}([{vowel_markers}])"` handed to the
vowel-marker `re.sub` (line 104). -/
def vowelMarkerPattern (pat : String) : String :=
  pat ++ "([" ++ String.mk vowel_markers ++ "])"

/-- The `replacement` selected for the current mode (lines 60-63):
`word['phonetics'] or normalize_iast(word['transliteration'])` in
phonetics mode, else `word['transliteration']`. -/
def replacementFor (normalize_iast : String → String) (mode : String)
    (word : Rule) : List Char :=
  if mode = "phonetics" then
    (if word.phonetics ≠ "" then word.phonetics else
      normalize_iast word.transliteration).data
  else
    word.transliteration.data

/-- One iteration of the rule loop (lines 59-116) on the working string.
`reFails` models `re.error` on pattern compilation: a flagged pattern makes
its `try` block stop at that statement, keeping the assignments already
made inside the block, exactly as the `except re.error: pass` handlers do;
for the general replacement the `except` branch performs the literal
`str.replace` fallback. -/
def ruleStep (reFails : String → Bool) (normalize_iast : String → String)
    (mode : String) (word : Rule) (s : List Char) : List Char :=
  -- if not pattern: continue
  if word.tibetan = "" then s
  else
    let replacement := replacementFor normalize_iast mode word
    let p := word.tibetan.data
    -- Handle -nāṃ suffix (lines 72-79)
    let s1 :=
      if reFails (genitivePattern word.tibetan) then s
      else
        subGenitiveAux p (if mode = "phonetics" then "nam".data else "nāṃ".data)
          s.length s
    -- Handle words ending in 'a' (lines 83-109)
    let s2 :=
      if replacement.getLast? = some 'a' then
        let base := replacement.dropLast
        if reFails (boundaryPattern word.tibetan) then s1
        else
          let t1 := subBoundaryAux p (replacement ++ [' ']) s1.length s1
          if reFails (visargaPattern word.tibetan) then t1
          else
            let t2 := reSubLit (p ++ ['ཿ'])
              (base ++ (if mode = "phonetics" then "ah".data else "aḥ".data)) t1
            if reFails (vowelMarkerPattern word.tibetan) then t2
            else subVowelMarkerAux p base t2.length t2
      else s1
    -- General replacement (lines 112-116)
    if reFails word.tibetan then
      strReplace p replacement s2
    else
      reSubLit p replacement s2

/-- The post-processing stage of `transliterate` (lines 118-138): tshek to
space, placeholder stripping, vowel-collision cleanup, capitalization or
space-run normalization, anusvara style, and final strip. -/
def postProcess (capitalize : Bool) (anusvara_style : String)
    (replaced : List Char) : String :=
  let result := strReplace ['་'] [' '] replaced
  let result := stripPlaceholder result
  let result := doubleVowelCleanup result
  let result :=
    if capitalize then
      let r := capFirst result
      capGroupsAux r.length r
    else
      normSpacesAux result.length result
  let result := if anusvara_style = "ṁ" then strReplace ['ṃ'] ['ṁ'] result
    else result
  String.mk (pyStrip result)

/-- The method `TibetanSanskritTransliterator.transliterate` (lines
34-138), with the `re` module's compile failures and the two normalizer
collaborators passed explicitly. -/
def TibetanSanskritTransliterator.transliterate
    (reFails : String → Bool)
    (normalize_tibetan : Bool → String → String)
    (normalize_iast : String → String)
    (self : TibetanSanskritTransliterator)
    (tibetan : String) (mode : String := "iast") (capitalize : Bool := false)
    (anusvara_style : String := "ṃ") : String :=
  -- replaced = normalize_tibetan(tibetan, keep_trailing_tshek=True)
  let replaced := (normalize_tibetan true tibetan).data
  let replaced :=
    self.replacements.foldl
      (fun s word => ruleStep reFails normalize_iast mode word s) replaced
  postProcess capitalize anusvara_style replaced

/-- The method as a state transformer: the Python method body (lines
34-138) contains no assignment to `self` or its fields — the only state
access is the read of `self.replacements` on line 59 — so the instance
threads through unchanged alongside the returned string. -/
def TibetanSanskritTransliterator.transliterateM
    (reFails : String → Bool)
    (normalize_tibetan : Bool → String → String)
    (normalize_iast : String → String)
    (self : TibetanSanskritTransliterator)
    (tibetan : String) (mode : String) (capitalize : Bool)
    (anusvara_style : String) : String × TibetanSanskritTransliterator :=
  (TibetanSanskritTransliterator.transliterate reFails normalize_tibetan
    normalize_iast self tibetan mode capitalize anusvara_style, self)

/-- The constructor `TibetanSanskritTransliterator.__init__` (lines 17-32):
load the raw rules and normalize every Tibetan pattern (default
`keep_trailing_tshek=False`). -/
def constructTransliterator
    (load_replacements : Option String → List Rule)
    (normalize_tibetan : Bool → String → String)
    (csv_path : Option String) : TibetanSanskritTransliterator :=
  ⟨(load_replacements csv_path).map (fun entry =>
    ⟨normalize_tibetan false entry.tibetan, entry.transliteration,
      entry.phonetics⟩)⟩

/-- `get_transliterator` (lines 169-182) acting on the module-level cache
`_default_transliterator`: it returns the instance together with the new
cache contents. -/
def get_transliterator
    (load_replacements : Option String → List Rule)
    (normalize_tibetan : Bool → String → String)
    (cache : Option TibetanSanskritTransliterator)
    (csv_path : Option String) :
    TibetanSanskritTransliterator × Option TibetanSanskritTransliterator :=
  match cache with
  | none =>
    let t := constructTransliterator load_replacements normalize_tibetan csv_path
    (t, some t)
  | some t => (t, some t)

/-- Python `str.replace` at `String` level, for stating results about
whole-output rewriting. -/
def pyReplaceStr (old new s : String) : String :=
  String.mk (strReplace old.data new.data s.data)

end TibetanSanskrit

namespace TibetanSanskrit

/-- A Tibetan normalizer that returns its input unchanged (the assumption
made by the concrete scenarios of the specification). -/
def idTibetanNormalizer : Bool → String → String := fun _ text => text

/-- The `re.error` oracle for a rule set whose patterns all compile. -/
def noReError : String → Bool := fun _ => false

/-- C1, counterexample: with the single rule `{tibetan: "སརྦ", phonetics:
"sarva"}` and the identity normalizer, `transliterate("སརྦ་ནཱཾ",
mode='phonetics')` does not return `"sarva nam"`: the placeholder-stripping
step `re.sub(r' ?\^\^\^', '', ...)` removes the space standing before the
`^^^` token together with the token, so the genitive suffix is glued to the
stem. -/
theorem c1_counterexample :
    TibetanSanskritTransliterator.transliterate noReError idTibetanNormalizer
      id ⟨[⟨"སརྦ", "sarva", "sarva"⟩]⟩ "སརྦ་ནཱཾ" "phonetics" false "ṃ" ≠
      "sarva nam" := by
  decide

/-- C1 (amended): for an engine whose rule list is the single rule with
pattern `"སརྦ"` and phonetics-mode replacement `"sarva"`, and the identity
Tibetan normalizer, `transliterate("སརྦ་ནཱཾ", mode='phonetics',
capitalize=false, anusvara_style='ṃ')` returns `"sarvanam"`: the
genitive-suffix step inserts the protected placeholder, and stripping the
placeholder also removes the preceding space, joining the suffix to the
stem. -/
theorem c1_genitive_suffix :
    TibetanSanskritTransliterator.transliterate noReError idTibetanNormalizer
      id ⟨[⟨"སརྦ", "sarva", "sarva"⟩]⟩ "སརྦ་ནཱཾ" "phonetics" false "ṃ" =
      "sarvanam" := by
  decide

/-- C2: for an engine whose rule list is
`[{tibetan: "བཛྲ", transliteration: "vajra", phonetics: ""}]` and the
identity Tibetan normalizer, `transliterate("བཛྲ་", mode='iast',
capitalize=false, anusvara_style='ṃ')` returns `"vajra"`: the pattern
followed by a tshek is rewritten to the replacement plus a space, and the
trailing space is trimmed by the final strip. -/
theorem c2_inherent_vowel_boundary :
    TibetanSanskritTransliterator.transliterate noReError idTibetanNormalizer
      id ⟨[⟨"བཛྲ", "vajra", ""⟩]⟩ "བཛྲ་" "iast" false "ṃ" = "vajra" := by
  decide

/-- C6: `transliterate` is deterministic — with a fixed rule list, calling
the method twice (the second call on the engine state left by the first)
with identical text, mode, capitalize flag and anusvara style yields
identical output strings. -/
theorem c6_deterministic (reFails : String → Bool)
    (normalize_tibetan : Bool → String → String)
    (normalize_iast : String → String)
    (engine : TibetanSanskritTransliterator)
    (tibetan mode : String) (capitalize : Bool) (anusvara_style : String) :
    (TibetanSanskritTransliterator.transliterateM reFails normalize_tibetan
        normalize_iast
        (TibetanSanskritTransliterator.transliterateM reFails
          normalize_tibetan normalize_iast engine tibetan mode capitalize
          anusvara_style).2
        tibetan mode capitalize anusvara_style).1 =
      (TibetanSanskritTransliterator.transliterateM reFails normalize_tibetan
        normalize_iast engine tibetan mode capitalize anusvara_style).1 := by
  rfl

/-- C8: once the process-wide cache holds an engine (after the first
`get_transliterator` call), every subsequent call — including one passing a
different custom `csv_path` — returns exactly the first call's instance and
leaves the cache unchanged: the new path is ignored. -/
theorem c8_singleton_cache_ignores_path
    (load_replacements : Option String → List Rule)
    (normalize_tibetan : Bool → String → String)
    (csv_path₁ csv_path₂ : Option String) :
    get_transliterator load_replacements normalize_tibetan
      (get_transliterator load_replacements normalize_tibetan none csv_path₁).2
      csv_path₂ =
      get_transliterator load_replacements normalize_tibetan none csv_path₁ := by
  rfl

/-- C9: a call to `transliterate` does not mutate the engine: the rule list
(every rule's pattern, transliteration and phonetics fields, and their
order) after the call is the one the engine held before it.  The method
body contains no assignment to the instance; its only state access is the
read of `self.replacements`. -/
theorem c9_engine_not_mutated (reFails : String → Bool)
    (normalize_tibetan : Bool → String → String)
    (normalize_iast : String → String)
    (engine : TibetanSanskritTransliterator)
    (tibetan mode : String) (capitalize : Bool) (anusvara_style : String) :
    (TibetanSanskritTransliterator.transliterateM reFails normalize_tibetan
        normalize_iast engine tibetan mode capitalize
        anusvara_style).2.replacements = engine.replacements := by
  rfl

end TibetanSanskrit

namespace TibetanSanskrit

/-- Does the literal string `p` occur (as a contiguous substring, which for
a metacharacter-free pattern is exactly `re` matching) anywhere in `s`? -/
def occursIn (p : List Char) : List Char → Bool
  | [] => p.isEmpty
  | c :: t => p.isPrefixOf (c :: t) || occursIn p t

/-- Is there an adjacent pair in `s` whose first character satisfies `P`
and whose second satisfies `Q`?  This is occurrence of a two-character
regex `P`-char followed by `Q`-class character. -/
def hasAdj (P Q : Char → Bool) : List Char → Bool
  | [] => false
  | [_] => false
  | c :: d :: t => (P c && Q d) || hasAdj P Q (d :: t)

/-- The character is the lowercase letter `a` (the inherent vowel). -/
def isLetterA (c : Char) : Bool := c == 'a'

/-- The character is a plain space. -/
def isSpaceChar (c : Char) : Bool := c == ' '

theorem occursIn_cons_elim {p : List Char} {c : Char} {t : List Char}
    (h : occursIn p (c :: t) = false) :
    p.isPrefixOf (c :: t) = false ∧ occursIn p t = false := by
  simpa [occursIn] using h

theorem isPrefixOf_append_left (p q : List Char) :
    ∀ s : List Char, (p ++ q).isPrefixOf s = true → p.isPrefixOf s = true := by
  induction p with
  | nil => intro s _; cases s <;> simp [List.isPrefixOf]
  | cons a p' ih =>
    intro s h
    cases s with
    | nil => simp [List.isPrefixOf] at h
    | cons b s' =>
      simp only [List.cons_append, List.isPrefixOf, Bool.and_eq_true] at h ⊢
      exact ⟨h.1, ih s' h.2⟩

theorem occursIn_append {p q : List Char} :
    ∀ {s : List Char}, occursIn p s = false → occursIn (p ++ q) s = false := by
  intro s
  induction s with
  | nil =>
    intro h
    cases p with
    | nil => simp [occursIn] at h
    | cons a p' => simp [occursIn]
  | cons c t ih =>
    intro h
    obtain ⟨h1, h2⟩ := occursIn_cons_elim h
    have hpq : (p ++ q).isPrefixOf (c :: t) = false := by
      cases hv : (p ++ q).isPrefixOf (c :: t) with
      | false => rfl
      | true => rw [isPrefixOf_append_left p q _ hv] at h1; cases h1
    -- `hpq` refutes a match at the head; the tail is the inductive case
    simp [occursIn, hpq, ih h2]

theorem hasAdj_tail {P Q : Char → Bool} {c : Char} {t : List Char}
    (h : hasAdj P Q (c :: t) = false) : hasAdj P Q t = false := by
  cases t with
  | nil => rfl
  | cons d t' =>
    simp only [hasAdj, Bool.or_eq_false_iff] at h
    exact h.2

theorem hasAdj_cons_elim {P Q : Char → Bool} {c d : Char} {t : List Char}
    (h : hasAdj P Q (c :: d :: t) = false) :
    (P c && Q d) = false ∧ hasAdj P Q (d :: t) = false := by
  simpa [hasAdj, Bool.or_eq_false_iff] using h

theorem hasAdj_cons_of_head {P Q : Char → Bool} {c : Char} {X : List Char}
    (hhead : ∀ e, X.head? = some e → (P c && Q e) = false)
    (hX : hasAdj P Q X = false) : hasAdj P Q (c :: X) = false := by
  cases X with
  | nil => rfl
  | cons d t => simp [hasAdj, hhead d rfl, hX]

theorem pyReplaceAux_id (old new : List Char) :
    ∀ (n : Nat) (s : List Char), occursIn old s = false →
      pyReplaceAux old new n s = s := by
  intro n
  induction n with
  | zero => intro s _; rfl
  | succ n ih =>
    intro s h
    cases s with
    | nil => rfl
    | cons c t =>
      obtain ⟨h1, h2⟩ := occursIn_cons_elim h
      simp [pyReplaceAux, h1, ih t h2]

theorem subGenitiveAux_id (p sfx : List Char) :
    ∀ (n : Nat) (s : List Char), occursIn p s = false →
      subGenitiveAux p sfx n s = s := by
  intro n
  induction n with
  | zero => intro s _; rfl
  | succ n ih =>
    intro s h
    cases s with
    | nil => rfl
    | cons c t =>
      obtain ⟨h1, h2⟩ := occursIn_cons_elim h
      simp [subGenitiveAux, h1, ih t h2]

theorem subBoundaryAux_id (p repl : List Char) :
    ∀ (n : Nat) (s : List Char), occursIn p s = false →
      subBoundaryAux p repl n s = s := by
  intro n
  induction n with
  | zero => intro s _; rfl
  | succ n ih =>
    intro s h
    cases s with
    | nil => rfl
    | cons c t =>
      obtain ⟨h1, h2⟩ := occursIn_cons_elim h
      simp [subBoundaryAux, h1, ih t h2]

theorem subVowelMarkerAux_id (p base : List Char) :
    ∀ (n : Nat) (s : List Char), occursIn p s = false →
      subVowelMarkerAux p base n s = s := by
  intro n
  induction n with
  | zero => intro s _; rfl
  | succ n ih =>
    intro s h
    cases s with
    | nil => rfl
    | cons c t =>
      obtain ⟨h1, h2⟩ := occursIn_cons_elim h
      simp [subVowelMarkerAux, h1, ih t h2]

theorem ruleStep_id (reFails : String → Bool) (normalize_iast : String → String)
    (mode : String) (word : Rule) (s : List Char)
    (h : word.tibetan ≠ "" → occursIn word.tibetan.data s = false) :
    ruleStep reFails normalize_iast mode word s = s := by
  by_cases h0 : word.tibetan = ""
  · simp [ruleStep, h0]
  · have hocc := h h0
    have hocc2 : occursIn (word.tibetan.data ++ ['ཿ']) s = false :=
      occursIn_append hocc
    simp [ruleStep, h0, reSubLit, strReplace,
      subGenitiveAux_id _ _ _ _ hocc, subBoundaryAux_id _ _ _ _ hocc,
      subVowelMarkerAux_id _ _ _ _ hocc, pyReplaceAux_id _ _ _ _ hocc,
      pyReplaceAux_id _ _ _ _ hocc2]

theorem foldl_ruleStep_id (reFails : String → Bool)
    (normalize_iast : String → String) (mode : String) :
    ∀ (rules : List Rule) (s : List Char),
      (∀ w ∈ rules, w.tibetan ≠ "" → occursIn w.tibetan.data s = false) →
      rules.foldl (fun s word => ruleStep reFails normalize_iast mode word s) s
        = s := by
  intro rules
  induction rules with
  | nil => intro s _; rfl
  | cons w ws ih =>
    intro s h
    rw [List.foldl_cons, ruleStep_id _ _ _ _ _ (h w (by simp))]
    exact ih s (fun w' hw' => h w' (by simp [hw']))

theorem stripPlaceholder_id :
    ∀ s : List Char, occursIn ['^', '^', '^'] s = false →
      stripPlaceholder s = s := by
  intro s
  induction s using stripPlaceholder.induct with
  | case1 t _ =>
    intro h
    exfalso
    have h' := (occursIn_cons_elim h).2
    simp [occursIn, List.isPrefixOf] at h'
  | case2 t _ =>
    intro h
    exfalso
    simp [occursIn, List.isPrefixOf] at h
  | case3 c t hne1 hne2 ih =>
    intro h
    simp only [stripPlaceholder]
    rw [ih ((occursIn_cons_elim h).2)]
  | case4 => intro _; rfl

theorem cleanupSub_id (cls : List Char) :
    ∀ s : List Char, hasAdj isLetterA cls.contains s = false →
      cleanupSub cls s = s := by
  intro s
  induction s using cleanupSub.induct cls with
  | case1 => intro _; rfl
  | case2 c => intro _; rfl
  | case3 c d t hguard _ =>
    intro h
    exfalso
    have hpair := (hasAdj_cons_elim h).1
    simp only [isLetterA] at hpair
    rw [hguard] at hpair
    cases hpair
  | case4 c d t hguard ih =>
    intro h
    have htail := (hasAdj_cons_elim h).2
    simp only [cleanupSub, if_neg hguard]
    rw [ih htail]

theorem normSpacesAux_id :
    ∀ (n : Nat) (s : List Char), hasAdj isSpaceChar isSpaceChar s = false →
      normSpacesAux n s = s := by
  intro n s
  induction n, s using normSpacesAux.induct with
  | case1 s => intro _; rfl
  | case2 n => intro _; rfl
  | case3 n t _ =>
    intro h
    exfalso
    have := (hasAdj_cons_elim h).1
    simp [isSpaceChar] at this
  | case4 n c t hcond ih =>
    intro h
    rw [normSpacesAux.eq_4]
    · rw [ih (hasAdj_tail h)]
    · exact hcond

/-- C3, counterexample: for the single-rule engine with pattern `"ཀ"` (which
does not occur in the input) and the identity normalizer, the input `"aā"`
is not returned unchanged-up-to-tshek-conversion-and-strip: the
vowel-collision cleanup deletes the `a` standing before `ā`, so the output
is `"ā"` while the claim predicts `"aā"`. -/
theorem c3_counterexample :
    occursIn "ཀ".data "aā".data = false ∧
    TibetanSanskritTransliterator.transliterate noReError idTibetanNormalizer
      id ⟨[⟨"ཀ", "ka", "ka"⟩]⟩ "aā" "iast" false "ṃ" ≠
      String.mk (pyStrip (strReplace ['་'] [' '] "aā".data)) :=
  ⟨by decide, by decide⟩

/-- C3 (amended): if no non-empty rule pattern occurs in the normalized
input, and the tshek→space image of that normalized input additionally
contains no `^^^` placeholder, no `a` standing immediately before a
long-vowel or anusvara character, and no two adjacent spaces, then
`transliterate` with `capitalize=false` and the default anusvara style
returns exactly the normalized input with every tshek replaced by a space
and leading/trailing whitespace stripped.  (The extra conditions are needed
because the placeholder strip, the vowel-collision cleanup and the
space-run normalization run on every input, matched or not.) -/
theorem c3_no_match_passthrough
    (reFails : String → Bool) (normalize_tibetan : Bool → String → String)
    (normalize_iast : String → String) (rules : List Rule)
    (tibetan mode : String)
    (hrules : ∀ w ∈ rules, w.tibetan ≠ "" →
      occursIn w.tibetan.data (normalize_tibetan true tibetan).data = false)
    (hcaret : occursIn ['^', '^', '^']
      (strReplace ['་'] [' '] (normalize_tibetan true tibetan).data) = false)
    (hlong : hasAdj isLetterA longVowelChars.contains
      (strReplace ['་'] [' '] (normalize_tibetan true tibetan).data) = false)
    (hanu : hasAdj isLetterA anusvaraChars.contains
      (strReplace ['་'] [' '] (normalize_tibetan true tibetan).data) = false)
    (hspace : hasAdj isSpaceChar isSpaceChar
      (strReplace ['་'] [' '] (normalize_tibetan true tibetan).data) = false) :
    TibetanSanskritTransliterator.transliterate reFails normalize_tibetan
      normalize_iast ⟨rules⟩ tibetan mode false "ṃ" =
      String.mk (pyStrip (strReplace ['་'] [' ']
        (normalize_tibetan true tibetan).data)) := by
  simp only [TibetanSanskritTransliterator.transliterate, postProcess,
    doubleVowelCleanup]
  rw [foldl_ruleStep_id _ _ _ rules _ hrules, stripPlaceholder_id _ hcaret,
    cleanupSub_id _ _ hlong, cleanupSub_id _ _ hanu,
    normSpacesAux_id _ _ hspace, if_neg (by decide : ¬("ṃ" = "ṁ"))]
  simp

/-- Closed witness for the amended C3 on the input `"ཨ་ཨ"` with the
single rule `"ཀ"`, whose pattern does not occur there. -/
theorem c3_witness :
    (∀ w ∈ [(⟨"ཀ", "ka", "ka"⟩ : Rule)], w.tibetan ≠ "" →
      occursIn w.tibetan.data (idTibetanNormalizer true "ཨ་ཨ").data = false) ∧
    TibetanSanskritTransliterator.transliterate noReError idTibetanNormalizer
      id ⟨[⟨"ཀ", "ka", "ka"⟩]⟩ "ཨ་ཨ" "iast" false "ṃ" =
      String.mk (pyStrip (strReplace ['་'] [' ']
        (idTibetanNormalizer true "ཨ་ཨ").data)) :=
  ⟨by decide, c3_no_match_passthrough noReError idTibetanNormalizer id
    [⟨"ཀ", "ka", "ka"⟩] "ཨ་ཨ" "iast" (by decide) (by decide) (by decide)
    (by decide) (by decide)⟩

theorem cleanupSub_cons_notA {cls : List Char} {d : Char}
    (hd : (d == 'a') = false) :
    ∀ t : List Char, cleanupSub cls (d :: t) = d :: cleanupSub cls t := by
  intro t
  cases t with
  | nil => simp [cleanupSub]
  | cons e t' => simp [cleanupSub, hd]

theorem head_cleanupSub {cls : List Char} {d : Char} {t : List Char}
    {e : Char} (h : (cleanupSub cls (d :: t)).head? = some e) :
    e = d ∨ cls.contains e = true := by
  cases t with
  | nil =>
    simp [cleanupSub] at h
    exact Or.inl h.symm
  | cons f t' =>
    by_cases hg : (d == 'a' && cls.contains f) = true
    · simp only [cleanupSub, if_pos hg] at h
      simp at h
      right
      rw [← h]
      exact (Bool.and_eq_true _ _ ▸ hg).2
    · simp only [cleanupSub, if_neg hg] at h
      simp at h
      exact Or.inl h.symm

/-- After one cleanup pass over a string with no `aa`, no `a` stands
immediately before a class character any more. -/
theorem cleanupSub_no_new_match (cls : List Char)
    (hacls : cls.contains 'a' = false) :
    ∀ s : List Char, hasAdj isLetterA isLetterA s = false →
      hasAdj isLetterA cls.contains (cleanupSub cls s) = false := by
  intro s
  induction s using cleanupSub.induct cls with
  | case1 => intro _; rfl
  | case2 c => intro _; rfl
  | case3 c d t hguard ih =>
    intro h
    obtain ⟨_, ht⟩ := hasAdj_cons_elim h
    have hguard' := hguard
    rw [Bool.and_eq_true] at hguard'
    obtain ⟨_, hd⟩ := hguard'
    have hda : isLetterA d = false := by
      simp only [isLetterA]
      cases hv : d == 'a' with
      | false => rfl
      | true =>
        have hde : d = 'a' := by simpa using hv
        rw [hde, hacls] at hd
        exact Bool.noConfusion hd
    simp only [cleanupSub, if_pos hguard]
    exact hasAdj_cons_of_head (fun e _ => by simp [hda]) (ih (hasAdj_tail ht))
  | case4 c d t hguard ih =>
    intro h
    obtain ⟨hp, ht⟩ := hasAdj_cons_elim h
    have hIH := ih ht
    simp only [cleanupSub, if_neg hguard]
    by_cases hc : (c == 'a') = true
    · have hda : (d == 'a') = false := by
        simp only [isLetterA, hc, Bool.true_and] at hp
        exact hp
      have hdcls : cls.contains d = false := by
        cases hv : cls.contains d with
        | false => rfl
        | true => exact absurd (by rw [hc, hv]; rfl) hguard
      rw [cleanupSub_cons_notA hda] at hIH ⊢
      simp only [hasAdj, Bool.or_eq_false_iff]
      exact ⟨by rw [hdcls, Bool.and_false], hIH⟩
    · have hca : isLetterA c = false := by
        simp only [isLetterA]
        cases hv : c == 'a' with
        | false => rfl
        | true => exact absurd hv hc
      exact hasAdj_cons_of_head (fun e _ => by simp [hca]) hIH

/-- One cleanup pass never creates a new `aa` pair. -/
theorem cleanupSub_preserves_noAA (cls : List Char)
    (hacls : cls.contains 'a' = false) :
    ∀ s : List Char, hasAdj isLetterA isLetterA s = false →
      hasAdj isLetterA isLetterA (cleanupSub cls s) = false := by
  intro s
  induction s using cleanupSub.induct cls with
  | case1 => intro _; rfl
  | case2 c => intro _; rfl
  | case3 c d t hguard ih =>
    intro h
    obtain ⟨_, ht⟩ := hasAdj_cons_elim h
    have hguard' := hguard
    rw [Bool.and_eq_true] at hguard'
    obtain ⟨_, hd⟩ := hguard'
    have hda : isLetterA d = false := by
      simp only [isLetterA]
      cases hv : d == 'a' with
      | false => rfl
      | true =>
        have hde : d = 'a' := by simpa using hv
        rw [hde, hacls] at hd
        exact Bool.noConfusion hd
    simp only [cleanupSub, if_pos hguard]
    exact hasAdj_cons_of_head (fun e _ => by simp [hda]) (ih (hasAdj_tail ht))
  | case4 c d t hguard ih =>
    intro h
    obtain ⟨hp, ht⟩ := hasAdj_cons_elim h
    have hIH := ih ht
    simp only [cleanupSub, if_neg hguard]
    by_cases hc : (c == 'a') = true
    · have hda : (d == 'a') = false := by
        simp only [isLetterA, hc, Bool.true_and] at hp
        exact hp
      rw [cleanupSub_cons_notA hda] at hIH ⊢
      simp only [hasAdj, Bool.or_eq_false_iff]
      refine ⟨?_, hIH⟩
      have hdA : isLetterA d = false := by simp only [isLetterA]; exact hda
      rw [hdA, Bool.and_false]
    · have hca : isLetterA c = false := by
        simp only [isLetterA]
        cases hv : c == 'a' with
        | false => rfl
        | true => exact absurd hv hc
      exact hasAdj_cons_of_head (fun e _ => by simp [hca]) hIH

/-- A cleanup pass over a disjoint class preserves the absence of
`a`-before-`Q` pairs, for any `Q` vanishing on that class. -/
theorem cleanupSub_preserves_noAdj (cls : List Char) (Q : Char → Bool)
    (hacls : cls.contains 'a' = false)
    (hQcls : ∀ e, cls.contains e = true → Q e = false) :
    ∀ s : List Char, hasAdj isLetterA Q s = false →
      hasAdj isLetterA Q (cleanupSub cls s) = false := by
  intro s
  induction s using cleanupSub.induct cls with
  | case1 => intro _; rfl
  | case2 c => intro _; rfl
  | case3 c d t hguard ih =>
    intro h
    obtain ⟨_, ht⟩ := hasAdj_cons_elim h
    have hguard' := hguard
    rw [Bool.and_eq_true] at hguard'
    obtain ⟨_, hd⟩ := hguard'
    have hda : isLetterA d = false := by
      simp only [isLetterA]
      cases hv : d == 'a' with
      | false => rfl
      | true =>
        have hde : d = 'a' := by simpa using hv
        rw [hde, hacls] at hd
        exact Bool.noConfusion hd
    simp only [cleanupSub, if_pos hguard]
    exact hasAdj_cons_of_head (fun e _ => by simp [hda]) (ih (hasAdj_tail ht))
  | case4 c d t hguard ih =>
    intro h
    obtain ⟨hp, ht⟩ := hasAdj_cons_elim h
    have hIH := ih ht
    simp only [cleanupSub, if_neg hguard]
    by_cases hc : (c == 'a') = true
    · have hQd : Q d = false := by
        simp only [isLetterA, hc, Bool.true_and] at hp
        exact hp
      apply hasAdj_cons_of_head _ hIH
      intro e he
      rcases head_cleanupSub he with rfl | hecls
      · simp [hQd]
      · simp [hQcls e hecls]
    · have hca : isLetterA c = false := by
        simp only [isLetterA]
        cases hv : c == 'a' with
        | false => rfl
        | true => exact absurd hv hc
      exact hasAdj_cons_of_head (fun e _ => by simp [hca]) hIH

/-- C4, counterexample: the vowel-collision cleanup is not idempotent.  On
`"aaā"` the first pass deletes only the second `a` (matches are
non-overlapping and scanning resumes after a match), leaving `"aā"`, which
a second pass reduces further to `"ā"`. -/
theorem c4_counterexample :
    doubleVowelCleanup (doubleVowelCleanup "aaā".data) ≠
      doubleVowelCleanup "aaā".data := by
  decide

/-- C4 (amended): the vowel-collision cleanup of lines 124-125 is
idempotent on every string that contains no two consecutive `a`
characters; only an `aa` pair immediately before a long-vowel or anusvara
character can survive the first pass and react again on the second. -/
theorem c4_cleanup_idempotent (s : List Char)
    (h : hasAdj isLetterA isLetterA s = false) :
    doubleVowelCleanup (doubleVowelCleanup s) = doubleVowelCleanup s := by
  have hla : longVowelChars.contains 'a' = false := by decide
  have haa : anusvaraChars.contains 'a' = false := by decide
  have h1 : hasAdj isLetterA isLetterA (cleanupSub longVowelChars s) = false :=
    cleanupSub_preserves_noAA longVowelChars hla s h
  have hL1 : hasAdj isLetterA longVowelChars.contains
      (cleanupSub longVowelChars s) = false :=
    cleanupSub_no_new_match longVowelChars hla s h
  have hA2 : hasAdj isLetterA anusvaraChars.contains
      (cleanupSub anusvaraChars (cleanupSub longVowelChars s)) = false :=
    cleanupSub_no_new_match anusvaraChars haa _ h1
  have hdisj : ∀ e, anusvaraChars.contains e = true →
      longVowelChars.contains e = false := by
    intro e he
    have hmem : e ∈ anusvaraChars := by simpa using he
    simp only [anusvaraChars, List.mem_cons, List.mem_singleton,
      List.not_mem_nil, or_false] at hmem
    rcases hmem with rfl | rfl <;> decide
  have hL2 : hasAdj isLetterA longVowelChars.contains
      (cleanupSub anusvaraChars (cleanupSub longVowelChars s)) = false :=
    cleanupSub_preserves_noAdj anusvaraChars longVowelChars.contains haa
      hdisj _ hL1
  unfold doubleVowelCleanup
  rw [cleanupSub_id _ _ hL2, cleanupSub_id _ _ hA2]

/-- Closed witness for the amended C4 on `"aāaṃ"`, which has `a`-collisions
but no `aa` pair. -/
theorem c4_witness :
    hasAdj isLetterA isLetterA "aāaṃ".data = false ∧
    doubleVowelCleanup (doubleVowelCleanup "aāaṃ".data) =
      doubleVowelCleanup "aāaṃ".data :=
  ⟨by decide, c4_cleanup_idempotent "aāaṃ".data (by decide)⟩

end TibetanSanskrit

namespace TibetanSanskrit

theorem pyReplaceAux_single (c0 d0 : Char) :
    ∀ (n : Nat) (s : List Char), s.length ≤ n →
      pyReplaceAux [c0] [d0] n s =
        s.map (fun c => if c == c0 then d0 else c) := by
  intro n
  induction n with
  | zero =>
    intro s hlen
    have : s = [] := List.eq_nil_of_length_eq_zero (Nat.le_zero.mp hlen)
    rw [this]
    rfl
  | succ n ih =>
    intro s hlen
    cases s with
    | nil => rfl
    | cons c t =>
      have hrec := ih t (Nat.le_of_succ_le_succ hlen)
      by_cases hc : c = c0
      · have hpre : [c0].isPrefixOf (c :: t) = true := by
          simp [List.isPrefixOf, hc]
        simp [pyReplaceAux, hpre, hrec, hc]
      · have hbeq : (c0 == c) = false := by
          cases hv : c0 == c with
          | false => rfl
          | true => exact absurd (show c0 = c by simpa using hv).symm hc
        have hbeq' : (c == c0) = false := by
          cases hv : c == c0 with
          | false => rfl
          | true => exact absurd (show c = c0 by simpa using hv) hc
        have hpre : [c0].isPrefixOf (c :: t) = false := by
          simp [List.isPrefixOf, hbeq]
        simp [pyReplaceAux, hpre, hrec, hbeq', hc]

theorem strReplace_single (c0 d0 : Char) (s : List Char) :
    strReplace [c0] [d0] s = s.map (fun c => if c == c0 then d0 else c) :=
  pyReplaceAux_single c0 d0 s.length s le_rfl

theorem pyStrip_map (f : Char → Char)
    (hf : ∀ c, pyIsSpace (f c) = pyIsSpace c) (s : List Char) :
    pyStrip (s.map f) = (pyStrip s).map f := by
  have hpf : pyIsSpace ∘ f = pyIsSpace := funext hf
  unfold pyStrip
  rw [List.dropWhile_map, hpf, ← List.map_reverse, List.dropWhile_map, hpf,
    ← List.map_reverse]

/-- C5: for every input text, mode and capitalize flag (and any rule set,
normalizers and `re` behaviour), the output with `anusvara_style='ṁ'`
equals the output with `anusvara_style='ṃ'` with every `ṃ` replaced by
`ṁ`, and nothing else differs: the style is consulted only by the final
`result.replace('ṃ', 'ṁ')`, which commutes with the trailing strip. -/
theorem c5_alternate_anusvara (reFails : String → Bool)
    (normalize_tibetan : Bool → String → String)
    (normalize_iast : String → String)
    (engine : TibetanSanskritTransliterator)
    (tibetan mode : String) (capitalize : Bool) :
    TibetanSanskritTransliterator.transliterate reFails normalize_tibetan
      normalize_iast engine tibetan mode capitalize "ṁ" =
      pyReplaceStr "ṃ" "ṁ"
        (TibetanSanskritTransliterator.transliterate reFails normalize_tibetan
          normalize_iast engine tibetan mode capitalize "ṃ") := by
  simp only [TibetanSanskritTransliterator.transliterate, postProcess,
    pyReplaceStr]
  rw [if_pos trivial, if_neg (by decide : ¬(("ṃ" : String) = "ṁ"))]
  apply congrArg String.mk
  simp only [strReplace_single]
  apply pyStrip_map
  intro c
  by_cases h : (c == 'ṃ') = true
  · have hc : c = 'ṃ' := by simpa using h
    rw [if_pos h, hc]
    decide
  · rw [if_neg h]

/-- The `re.error` oracle under which every pattern fails to compile. -/
def allReError : String → Bool := fun _ => true

/-- C7: a rule whose pattern fails to compile never aborts the call.  With
an oracle flagging all five pattern strings built from the rule, the
genitive-suffix and the three inherent-vowel substitutions are skipped,
and the general-replacement step falls back to the literal (non-regex)
`str.replace`; the call still returns a normally post-processed string. -/
theorem c7_malformed_pattern_literal_fallback (reFails : String → Bool)
    (normalize_tibetan : Bool → String → String)
    (normalize_iast : String → String) (word : Rule)
    (tibetan mode : String) (capitalize : Bool) (anusvara_style : String)
    (hne : word.tibetan ≠ "")
    (hgen : reFails (genitivePattern word.tibetan) = true)
    (hbound : reFails (boundaryPattern word.tibetan) = true)
    (hvis : reFails (visargaPattern word.tibetan) = true)
    (hvm : reFails (vowelMarkerPattern word.tibetan) = true)
    (hlit : reFails word.tibetan = true) :
    TibetanSanskritTransliterator.transliterate reFails normalize_tibetan
      normalize_iast ⟨[word]⟩ tibetan mode capitalize anusvara_style =
      postProcess capitalize anusvara_style
        (strReplace word.tibetan.data (replacementFor normalize_iast mode word)
          (normalize_tibetan true tibetan).data) := by
  simp only [TibetanSanskritTransliterator.transliterate, List.foldl_cons,
    List.foldl_nil]
  congr 1
  simp [ruleStep, hne, hgen, hbound, hvis, hvm, hlit]

/-- Closed witness for C7: with the all-failing oracle and the single rule
`"ཀ" → "ka"`, the call on `"ཀ་ཀ"` equals the post-processed literal
replacement. -/
theorem c7_witness :
    (("ཀ" : String) ≠ "") ∧
    allReError (genitivePattern "ཀ") = true ∧
    allReError (boundaryPattern "ཀ") = true ∧
    allReError (visargaPattern "ཀ") = true ∧
    allReError (vowelMarkerPattern "ཀ") = true ∧
    allReError "ཀ" = true ∧
    TibetanSanskritTransliterator.transliterate allReError idTibetanNormalizer
      id ⟨[⟨"ཀ", "ka", "ka"⟩]⟩ "ཀ་ཀ" "iast" false "ṃ" =
      postProcess false "ṃ"
        (strReplace "ཀ".data (replacementFor id "iast" ⟨"ཀ", "ka", "ka"⟩)
          (idTibetanNormalizer true "ཀ་ཀ").data) :=
  ⟨by decide, rfl, rfl, rfl, rfl, rfl,
    c7_malformed_pattern_literal_fallback allReError idTibetanNormalizer id
      ⟨"ཀ", "ka", "ka"⟩ "ཀ་ཀ" "iast" false "ṃ" (by decide) rfl rfl rfl rfl rfl⟩

end TibetanSanskrit

namespace TibetanSanskrit

theorem not_mem_strReplace_tshekToSpace (s : List Char) :
    '་' ∉ strReplace ['་'] [' '] s := by
  rw [strReplace_single]
  intro hmem
  obtain ⟨c, _, hcc⟩ := List.mem_map.mp hmem
  by_cases h : (c == '་') = true
  · rw [if_pos h] at hcc
    exact absurd hcc (by decide)
  · rw [if_neg h] at hcc
    exact h (by simp [hcc])

theorem not_mem_strReplace_single {x c0 d0 : Char} (hd : d0 ≠ x)
    {s : List Char} (hs : x ∉ s) : x ∉ strReplace [c0] [d0] s := by
  rw [strReplace_single]
  intro hmem
  obtain ⟨c, hcmem, hcc⟩ := List.mem_map.mp hmem
  by_cases h : (c == c0) = true
  · rw [if_pos h] at hcc
    exact hd hcc
  · rw [if_neg h] at hcc
    exact hs (hcc ▸ hcmem)

theorem mem_stripPlaceholder {c : Char} :
    ∀ {s : List Char}, c ∈ stripPlaceholder s → c ∈ s := by
  intro s
  induction s using stripPlaceholder.induct with
  | case1 t ih =>
    intro h
    have := ih h
    simp [this]
  | case2 t ih =>
    intro h
    have := ih h
    simp [this]
  | case3 d t hne1 hne2 ih =>
    intro h
    rw [stripPlaceholder.eq_3] at h
    · rcases List.mem_cons.mp h with rfl | h'
      · simp
      · simp [ih h']
    · exact hne1
    · exact hne2
  | case4 => intro h; exact h

theorem mem_cleanupSub {c : Char} {cls : List Char} :
    ∀ {s : List Char}, c ∈ cleanupSub cls s → c ∈ s := by
  intro s
  induction s using cleanupSub.induct cls with
  | case1 => intro h; exact h
  | case2 d => intro h; exact h
  | case3 a d t hguard ih =>
    intro h
    simp only [cleanupSub, if_pos hguard] at h
    rcases List.mem_cons.mp h with rfl | h'
    · simp
    · simp [ih h']
  | case4 a d t hguard ih =>
    intro h
    simp only [cleanupSub, if_neg hguard] at h
    rcases List.mem_cons.mp h with rfl | h'
    · simp
    · simp [ih h']

theorem pyUpper_ne_tshek {c : Char} (h : c ≠ '་') : pyUpper c ≠ '་' := by
  unfold pyUpper
  split <;> first | decide | exact h

theorem not_mem_capFirst {s : List Char} (h : '་' ∉ s) : '་' ∉ capFirst s := by
  cases s with
  | nil => exact h
  | cons c t =>
    intro hmem
    rcases List.mem_cons.mp hmem with heq | h'
    · exact pyUpper_ne_tshek (fun hc => h (by simp [hc])) heq.symm
    · exact h (List.mem_cons_of_mem _ h')

theorem not_mem_normSpacesAux :
    ∀ (n : Nat) (s : List Char), '་' ∉ s → '་' ∉ normSpacesAux n s := by
  intro n s
  induction n, s using normSpacesAux.induct with
  | case1 s => intro h; exact h
  | case2 n => intro _; simp [normSpacesAux]
  | case3 n t ih =>
    intro h
    have ht : '་' ∉ t := fun hm => h (by simp [hm])
    have hdw : '་' ∉ t.dropWhile (· == ' ') :=
      fun hm => ht ((List.dropWhile_sublist _).subset hm)
    rw [normSpacesAux]
    simp only [List.mem_cons, not_or]
    exact ⟨by decide, by decide, by decide, by decide, ih hdw⟩
  | case4 n c t hcond ih =>
    intro h
    rw [normSpacesAux.eq_4]
    · simp only [List.mem_cons, not_or]
      refine ⟨fun hc => h (by simp [hc.symm]), ?_⟩
      exact ih (fun hm => h (by simp [hm]))
    · exact hcond

theorem not_mem_capGroupsAux :
    ∀ (n : Nat) (s : List Char), '་' ∉ s → '་' ∉ capGroupsAux n s := by
  intro n s
  induction n, s using capGroupsAux.induct with
  | case1 s => intro h; exact h
  | case2 n => intro _; simp [capGroupsAux]
  | case3 n t run rest hrest hrun ih =>
    intro h
    have hrest' :
        List.drop (List.takeWhile (fun x => x == ' ') t).length t =
          ([] : List Char) := hrest
    have hrun' : (List.takeWhile (fun x => x == ' ') t).length ≥ 1 := hrun
    rw [capGroupsAux.eq_3, hrest']
    simp only [if_pos hrun', List.mem_cons, not_or]
    exact ⟨by decide, by decide, by decide, by decide, by decide, ih (by simp)⟩
  | case4 n t run rest hrest hrun =>
    intro h
    have hrest' :
        List.drop (List.takeWhile (fun x => x == ' ') t).length t =
          ([] : List Char) := hrest
    have hrun' : ¬(List.takeWhile (fun x => x == ' ') t).length ≥ 1 := hrun
    rw [capGroupsAux.eq_3, hrest']
    simp only [if_neg hrun']
    decide
  | case5 n t run rest c r2 hrest hc hrun ih =>
    intro h
    have ht : '་' ∉ t := fun hm => h (by simp [hm])
    have hrest' :
        List.drop (List.takeWhile (fun x => x == ' ') t).length t = c :: r2 :=
      hrest
    have hrun' : (List.takeWhile (fun x => x == ' ') t).length ≥ 1 := hrun
    have hrm : '་' ∉ c :: r2 := by
      rw [← hrest']
      exact fun hm => ht (List.drop_subset _ _ hm)
    have ihr : '་' ∉ List.drop (List.takeWhile (fun x => x == ' ') t).length t →
        '་' ∉ capGroupsAux n
          (List.drop (List.takeWhile (fun x => x == ' ') t).length t) := ih
    rw [hrest'] at ihr
    rw [capGroupsAux.eq_3, hrest']
    simp only [if_pos hc, if_pos hrun', List.mem_cons, not_or]
    exact ⟨by decide, by decide, by decide, by decide, by decide, ihr hrm⟩
  | case6 n t run rest c r2 hrest hc hrun ih =>
    intro h
    have ht : '་' ∉ t := fun hm => h (by simp [hm])
    have hrest' :
        List.drop (List.takeWhile (fun x => x == ' ') t).length t = c :: r2 :=
      hrest
    have hrun' : ¬(List.takeWhile (fun x => x == ' ') t).length ≥ 1 := hrun
    have hrm : '་' ∉ c :: r2 := by
      rw [← hrest']
      exact fun hm => ht (List.drop_subset _ _ hm)
    have ihr : '་' ∉ List.drop (List.takeWhile (fun x => x == ' ') t).length t →
        '་' ∉ capGroupsAux n
          (List.drop (List.takeWhile (fun x => x == ' ') t).length t) := ih
    rw [hrest'] at ihr
    rw [capGroupsAux.eq_3, hrest']
    simp only [if_pos hc, if_neg hrun', List.mem_cons, not_or]
    exact ⟨by decide, by decide, ihr hrm⟩
  | case7 n t run rest c r2 hrest hc ih =>
    intro h
    have ht : '་' ∉ t := fun hm => h (by simp [hm])
    have hrest' :
        List.drop (List.takeWhile (fun x => x == ' ') t).length t = c :: r2 :=
      hrest
    have hc' : ¬((c == '\n') = true) := hc
    have hrm : '་' ∉ c :: r2 := by
      rw [← hrest']
      exact fun hm => ht (List.drop_subset _ _ hm)
    have hcne : c ≠ '་' := fun hce => hrm (by rw [hce]; exact List.mem_cons_self _ _)
    have hr2 : '་' ∉ r2 := fun hm => hrm (by simp [hm])
    rw [capGroupsAux.eq_3, hrest']
    simp only [if_neg hc', List.mem_cons, not_or]
    exact ⟨by decide, by decide, by decide, by decide,
      fun he => pyUpper_ne_tshek hcne he.symm, ih hr2⟩
  | case8 n c t hcond ih =>
    intro h
    rw [capGroupsAux.eq_4]
    · simp only [List.mem_cons, not_or]
      refine ⟨fun hc => h (by simp [hc.symm]), ?_⟩
      exact ih (fun hm => h (by simp [hm]))
    · exact hcond

theorem mem_pyStrip {c : Char} {s : List Char} (h : c ∈ pyStrip s) : c ∈ s := by
  unfold pyStrip at h
  rw [List.mem_reverse] at h
  have h1 := (List.dropWhile_sublist _).subset h
  rw [List.mem_reverse] at h1
  exact (List.dropWhile_sublist _).subset h1

theorem contains_eq_false_of_not_mem {c : Char} {l : List Char}
    (h : c ∉ l) : l.contains c = false := by
  cases hv : l.contains c with
  | false => rfl
  | true => exact absurd (by simpa using hv) h

/-- The post-processing stage never outputs a tshek: the tshek→space
replacement removes every tshek, and the later steps only delete
characters, emit spaces, or uppercase characters already present. -/
theorem postProcess_no_tshek (capitalize : Bool) (anusvara_style : String)
    (replaced : List Char) :
    (postProcess capitalize anusvara_style replaced).data.contains '་'
      = false := by
  apply contains_eq_false_of_not_mem
  simp only [postProcess]
  intro hmem
  have h1 := mem_pyStrip hmem
  have hclean : '་' ∉
      (if capitalize then
        capGroupsAux (capFirst (doubleVowelCleanup (stripPlaceholder
          (strReplace ['་'] [' '] replaced)))).length
          (capFirst (doubleVowelCleanup (stripPlaceholder
            (strReplace ['་'] [' '] replaced))))
      else
        normSpacesAux (doubleVowelCleanup (stripPlaceholder
          (strReplace ['་'] [' '] replaced))).length
          (doubleVowelCleanup (stripPlaceholder
            (strReplace ['་'] [' '] replaced)))) := by
    have hbase : '་' ∉ doubleVowelCleanup (stripPlaceholder
        (strReplace ['་'] [' '] replaced)) := by
      intro hm
      exact not_mem_strReplace_tshekToSpace replaced
        (mem_stripPlaceholder (mem_cleanupSub (mem_cleanupSub hm)))
    cases capitalize with
    | false => exact not_mem_normSpacesAux _ _ hbase
    | true => exact not_mem_capGroupsAux _ _ (not_mem_capFirst hbase)
  by_cases hstyle : anusvara_style = "ṁ"
  · rw [if_pos hstyle] at h1
    exact not_mem_strReplace_single (by decide) hclean h1
  · rw [if_neg hstyle] at h1
    exact hclean h1

/-- C10: for every rule list, normalizers, `re` behaviour and request, the
string returned by `transliterate` contains no tshek `་`, even when the
input or a rule's replacement text contains tsheks and even though the
genitive-suffix sub-step reinserts a tshek into the working string: all
tsheks are converted to spaces after the rule loop and no later step
introduces one. -/
theorem c10_no_tshek_in_output (reFails : String → Bool)
    (normalize_tibetan : Bool → String → String)
    (normalize_iast : String → String)
    (engine : TibetanSanskritTransliterator)
    (tibetan mode : String) (capitalize : Bool) (anusvara_style : String) :
    (TibetanSanskritTransliterator.transliterate reFails normalize_tibetan
      normalize_iast engine tibetan mode capitalize
      anusvara_style).data.contains '་' = false :=
  postProcess_no_tshek capitalize anusvara_style _

end TibetanSanskrit
